import Mathlib

/-!
Verification development for the resumable concurrent batch-generation engine
of `incident_generator.py`.

The embedding covers:
* a JSON value model with a serializer and a recursive-descent parser,
  standing for the Python `json` library calls (`json.dump`, `json.load`,
  `json.loads`) that the checkpoint store and the response parser use;
* the checkpoint store `save_incidents_to_temp` / `load_existing_incidents`;
* the response-parsing steps inside `generate_incident_batch`
  (markdown fence stripping, JSON decoding, array check);
* the orchestrator loop of `main`: round dispatch, result collection with
  per-batch checkpoint saves, and the termination handlers.
-/

/-! ## Characters and character classes -/

/-- The backtick character, written via its code point. -/
def btick : Char := Char.ofNat 96

/-- The double-quote character. -/
def quoteChar : Char := Char.ofNat 34

/-- The backslash character. -/
def bslashChar : Char := Char.ofNat 92

/-- Opening curly brace. -/
def lbrace : Char := Char.ofNat 123

/-- Closing curly brace. -/
def rbrace : Char := Char.ofNat 125

/-- Whitespace skipped between JSON tokens (space, tab, newline, carriage
return), as in the Python `json` scanner. -/
def isWs (c : Char) : Bool :=
  c.toNat = 32 || c.toNat = 9 || c.toNat = 10 || c.toNat = 13

/-- Whitespace removed by Python `str.strip()` (space, tab, newline, carriage
return, vertical tab, form feed). -/
def isPySpace (c : Char) : Bool :=
  c.toNat = 32 || c.toNat = 9 || c.toNat = 10 || c.toNat = 13 ||
  c.toNat = 11 || c.toNat = 12

/-- ASCII decimal digit test. -/
def isDigitChar (c : Char) : Bool :=
  48 ≤ c.toNat && c.toNat ≤ 57

/-- Numeric value of an ASCII digit. -/
def digitVal (c : Char) : Nat := c.toNat - 48

/-- The character for a single decimal digit. -/
def digitChr (d : Nat) : Char := Char.ofNat (48 + d)

/-! ## JSON values

Modelled from the spec: the checkpoint file is "a single JSON array of Record
objects" and the parser hands records through "whatever object shape the
backend produced", so a record is an arbitrary JSON value.  JSON numbers are
modelled as integers (machine floating point is outside the embedding); object
members are an ordered key/value list, matching the insertion order Python
dicts and `json` preserve. -/

inductive Json where
  | null
  | bool (b : Bool)
  | num (n : Int)
  | str (s : List Char)
  | arr (elems : List Json)
  | obj (members : List (List Char × Json))

/-! ## Serialization (modelling `json.dump(..., ensure_ascii=False)`)

Modelled from the spec: §6 fixes the checkpoint file format as a single JSON
array whose "indentation [is] irrelevant to correctness", so the model prints
compactly; the parser below skips inter-token whitespace, which is where the
`indent=2` of the source would go. -/

/-- Escape one character inside a JSON string literal. -/
def escChar (c : Char) : List Char :=
  if c = quoteChar then [bslashChar, quoteChar]
  else if c = bslashChar then [bslashChar, bslashChar]
  else if c = '\n' then [bslashChar, 'n']
  else if c = '\t' then [bslashChar, 't']
  else if c = '\r' then [bslashChar, 'r']
  else [c]

/-- Escape a whole string body. -/
def escList : List Char → List Char
  | [] => []
  | c :: cs => escChar c ++ escList cs

/-- Render a string literal with surrounding quotes. -/
def renderStr (s : List Char) : List Char :=
  quoteChar :: escList s ++ [quoteChar]

/-- Decimal rendering of a natural number, most significant digit first. -/
def renderNat (n : Nat) : List Char :=
  if n = 0 then [digitChr 0]
  else ((Nat.digits 10 n).map digitChr).reverse

/-- Decimal rendering of an integer. -/
def renderInt : Int → List Char
  | Int.ofNat n => renderNat n
  | Int.negSucc m => '-' :: renderNat (m + 1)

/-- The keyword rendering of the null value. -/
def kwNull : List Char := ['n', 'u', 'l', 'l']

/-- The keyword rendering of the true value. -/
def kwTrue : List Char := ['t', 'r', 'u', 'e']

/-- The keyword rendering of the false value. -/
def kwFalse : List Char := ['f', 'a', 'l', 's', 'e']

mutual

/-- Serialize a JSON value. -/
def Json.render : Json → List Char
  | .null => kwNull
  | .bool true => kwTrue
  | .bool false => kwFalse
  | .num n => renderInt n
  | .str s => renderStr s
  | .arr [] => ['[', ']']
  | .arr (x :: xs) => '[' :: (Json.render x ++ Json.renderElems xs) ++ [']']
  | .obj [] => [lbrace, rbrace]
  | .obj ((k, v) :: kvs) =>
      lbrace :: (renderStr k ++ ':' :: Json.render v ++ Json.renderMembers kvs) ++ [rbrace]

/-- Serialize the remaining elements of an array, each preceded by a comma. -/
def Json.renderElems : List Json → List Char
  | [] => []
  | x :: xs => ',' :: Json.render x ++ Json.renderElems xs

/-- Serialize the remaining members of an object, each preceded by a comma. -/
def Json.renderMembers : List (List Char × Json) → List Char
  | [] => []
  | (k, v) :: kvs => ',' :: renderStr k ++ ':' :: Json.render v ++ Json.renderMembers kvs

end

/-! ## Parsing (modelling `json.load` / `json.loads`) -/

/-- Skip inter-token whitespace. -/
def skipWs (cs : List Char) : List Char := cs.dropWhile isWs

/-- Parse a maximal run of decimal digits. -/
def parseNat (cs : List Char) : Option (Nat × List Char) :=
  if cs.takeWhile isDigitChar = [] then none
  else some ((cs.takeWhile isDigitChar).foldl (fun a c => a * 10 + digitVal c) 0,
             cs.dropWhile isDigitChar)

/-- Decode one escape character inside a string literal. -/
def unescChar (c : Char) : Option Char :=
  if c = quoteChar then some quoteChar
  else if c = bslashChar then some bslashChar
  else if c = 'n' then some '\n'
  else if c = 't' then some '\t'
  else if c = 'r' then some '\r'
  else if c = '/' then some '/'
  else none

/-- Parse a string-literal body up to and including the closing quote. -/
def parseStrBody : List Char → Option (List Char × List Char)
  | [] => none
  | c :: rest =>
    if c = quoteChar then some ([], rest)
    else if c = bslashChar then
      match rest with
      | [] => none
      | e :: rest2 =>
        match unescChar e with
        | none => none
        | some d =>
          match parseStrBody rest2 with
          | none => none
          | some (s, r) => some (d :: s, r)
    else
      match parseStrBody rest with
      | none => none
      | some (s, r) => some (c :: s, r)

/-- `true` when the list does not begin with a digit (so a completed numeric
token cannot be extended by what follows). -/
def headNotDigit : List Char → Bool
  | [] => true
  | c :: _ => !isDigitChar c

mutual

/-- Parse one JSON value, with fuel bounding recursion depth. -/
def parseVal : Nat → List Char → Option (Json × List Char)
  | 0, _ => none
  | fuel + 1, cs =>
    match skipWs cs with
    | [] => none
    | c :: rest =>
      if isDigitChar c then
        match parseNat (c :: rest) with
        | none => none
        | some (n, r) => some (.num (n : Int), r)
      else if c = '-' then
        match parseNat rest with
        | none => none
        | some (n, r) => some (.num (-(n : Int)), r)
      else if c = quoteChar then
        match parseStrBody rest with
        | none => none
        | some (s, r) => some (.str s, r)
      else if c = 'n' then
        match rest with
        | 'u' :: 'l' :: 'l' :: r => some (.null, r)
        | _ => none
      else if c = 't' then
        match rest with
        | 'r' :: 'u' :: 'e' :: r => some (.bool true, r)
        | _ => none
      else if c = 'f' then
        match rest with
        | 'a' :: 'l' :: 's' :: 'e' :: r => some (.bool false, r)
        | _ => none
      else if c = '[' then
        match skipWs rest with
        | [] => none
        | c2 :: rest2 =>
          if c2 = ']' then some (.arr [], rest2)
          else
            match parseVal fuel (c2 :: rest2) with
            | none => none
            | some (v, rest3) =>
              match parseArrTail fuel rest3 with
              | none => none
              | some (vs, rest4) => some (.arr (v :: vs), rest4)
      else if c = lbrace then
        match skipWs rest with
        | [] => none
        | c2 :: rest2 =>
          if c2 = rbrace then some (.obj [], rest2)
          else if c2 = quoteChar then
            match parseStrBody rest2 with
            | none => none
            | some (k, rest3) =>
              match skipWs rest3 with
              | [] => none
              | c3 :: rest4 =>
                if c3 = ':' then
                  match parseVal fuel rest4 with
                  | none => none
                  | some (v, rest5) =>
                    match parseObjTail fuel rest5 with
                    | none => none
                    | some (kvs, rest6) => some (.obj ((k, v) :: kvs), rest6)
                else none
          else none
      else none

/-- After one array element: parse `, element`* followed by `]`. -/
def parseArrTail : Nat → List Char → Option (List Json × List Char)
  | 0, _ => none
  | fuel + 1, cs =>
    match skipWs cs with
    | [] => none
    | c :: rest =>
      if c = ']' then some ([], rest)
      else if c = ',' then
        match parseVal fuel rest with
        | none => none
        | some (v, rest2) =>
          match parseArrTail fuel rest2 with
          | none => none
          | some (vs, rest3) => some (v :: vs, rest3)
      else none

/-- After one object member: parse `, "key" : value`* followed by `}`. -/
def parseObjTail : Nat → List Char → Option (List (List Char × Json) × List Char)
  | 0, _ => none
  | fuel + 1, cs =>
    match skipWs cs with
    | [] => none
    | c :: rest =>
      if c = rbrace then some ([], rest)
      else if c = ',' then
        match skipWs rest with
        | [] => none
        | c2 :: rest2 =>
          if c2 = quoteChar then
            match parseStrBody rest2 with
            | none => none
            | some (k, rest3) =>
              match skipWs rest3 with
              | [] => none
              | c3 :: rest4 =>
                if c3 = ':' then
                  match parseVal fuel rest4 with
                  | none => none
                  | some (v, rest5) =>
                    match parseObjTail fuel rest5 with
                    | none => none
                    | some (kvs, rest6) => some ((k, v) :: kvs, rest6)
                else none
          else none
      else none

end

/-- Decode a whole text as one JSON document, rejecting trailing garbage, as
`json.loads` does. -/
def json_loads (cs : List Char) : Option Json :=
  match parseVal (cs.length + 1) cs with
  | none => none
  | some (v, rest) => if skipWs rest = [] then some v else none

/-! ## Round-trip: parsing a serialized value returns it -/

theorem skipWs_cons_of_not_ws {c : Char} (h : isWs c = false) (t : List Char) :
    skipWs (c :: t) = c :: t := by
  simp [skipWs, List.dropWhile_cons, h]

theorem isWs_of_digit {c : Char} (h : isDigitChar c = true) : isWs c = false := by
  cases hw : isWs c
  · rfl
  · exfalso
    simp only [isDigitChar, Bool.and_eq_true, decide_eq_true_eq] at h
    simp only [isWs, Bool.or_eq_true, decide_eq_true_eq] at hw
    omega

theorem ne_rsqb_of_digit {c : Char} (h : isDigitChar c = true) : c ≠ ']' :=
  fun hEq => absurd (hEq ▸ h) (by decide)

theorem digitVal_digitChr {d : Nat} (h : d < 10) : digitVal (digitChr d) = d := by
  interval_cases d <;> decide

theorem isDigitChar_digitChr {d : Nat} (h : d < 10) : isDigitChar (digitChr d) = true := by
  interval_cases d <;> decide

theorem renderNat_ne_nil (n : Nat) : renderNat n ≠ [] := by
  unfold renderNat
  split
  · simp
  · rename_i h
    have hd : Nat.digits 10 n ≠ [] := Nat.digits_ne_nil_iff_ne_zero.mpr h
    simp [hd]

theorem renderNat_digits (n : Nat) : ∀ c ∈ renderNat n, isDigitChar c = true := by
  intro c hc
  unfold renderNat at hc
  split at hc
  · simp only [List.mem_singleton] at hc
    subst hc
    decide
  · simp only [List.mem_reverse, List.mem_map] at hc
    obtain ⟨d, hd, rfl⟩ := hc
    exact isDigitChar_digitChr (Nat.digits_lt_base (by norm_num) hd)

theorem foldl_digits_rev (ds : List Nat) (h : ∀ d ∈ ds, d < 10) (a : Nat) :
    (ds.reverse.map digitChr).foldl (fun x c => x * 10 + digitVal c) a
      = a * 10 ^ ds.length + Nat.ofDigits 10 ds := by
  induction ds generalizing a with
  | nil => simp [Nat.ofDigits]
  | cons d ds ih =>
    have hd : d < 10 := h d (by simp)
    have hds : ∀ x ∈ ds, x < 10 := fun x hx => h x (by simp [hx])
    rw [List.reverse_cons, List.map_append, List.foldl_append, ih hds]
    simp only [List.map_cons, List.map_nil, List.foldl_cons, List.foldl_nil]
    rw [digitVal_digitChr hd, Nat.ofDigits_cons, List.length_cons, pow_succ]
    ring

theorem renderNat_foldl (n : Nat) :
    (renderNat n).foldl (fun a c => a * 10 + digitVal c) 0 = n := by
  unfold renderNat
  split
  · rename_i h
    subst h
    decide
  · rw [← List.map_reverse,
        foldl_digits_rev _ (fun d hd => Nat.digits_lt_base (by norm_num) hd)]
    simp [Nat.ofDigits_digits]

theorem takeWhile_append_of_all {p : Char → Bool} {l r : List Char}
    (hl : ∀ c ∈ l, p c = true) (hr : r.takeWhile p = []) :
    (l ++ r).takeWhile p = l := by
  induction l with
  | nil => simpa using hr
  | cons c t ih =>
    rw [List.cons_append, List.takeWhile_cons, if_pos (hl c (by simp)),
        ih (fun x hx => hl x (by simp [hx]))]

theorem dropWhile_append_of_all {p : Char → Bool} {l r : List Char}
    (hl : ∀ c ∈ l, p c = true) (hr : r.dropWhile p = r) :
    (l ++ r).dropWhile p = r := by
  induction l with
  | nil => simpa using hr
  | cons c t ih =>
    rw [List.cons_append, List.dropWhile_cons, if_pos (hl c (by simp)),
        ih (fun x hx => hl x (by simp [hx]))]

theorem headNotDigit_take {r : List Char} (h : headNotDigit r = true) :
    r.takeWhile isDigitChar = [] ∧ r.dropWhile isDigitChar = r := by
  cases r with
  | nil => simp
  | cons c t =>
    simp only [headNotDigit, Bool.not_eq_true'] at h
    constructor
    · rw [List.takeWhile_cons, if_neg (by simp [h])]
    · rw [List.dropWhile_cons, if_neg (by simp [h])]

theorem parseNat_round (n : Nat) {rest : List Char} (h : headNotDigit rest = true) :
    parseNat (renderNat n ++ rest) = some (n, rest) := by
  obtain ⟨ht, hdr⟩ := headNotDigit_take h
  unfold parseNat
  rw [takeWhile_append_of_all (renderNat_digits n) ht,
      dropWhile_append_of_all (renderNat_digits n) hdr,
      if_neg (renderNat_ne_nil n), renderNat_foldl n]

theorem parseStrBody_round (s : List Char) (rest : List Char) :
    parseStrBody (escList s ++ quoteChar :: rest) = some (s, rest) := by
  induction s with
  | nil =>
    show parseStrBody (quoteChar :: rest) = _
    unfold parseStrBody
    simp
  | cons c s ih =>
    show parseStrBody ((escChar c ++ escList s) ++ quoteChar :: rest) = _
    rw [List.append_assoc]
    by_cases h1 : c = quoteChar
    · subst h1
      rw [show escChar quoteChar = [bslashChar, quoteChar] by simp [escChar]]
      show parseStrBody (bslashChar :: quoteChar :: (escList s ++ quoteChar :: rest)) = _
      unfold parseStrBody
      simp [unescChar, ih, show bslashChar ≠ quoteChar by decide]
    · by_cases h2 : c = bslashChar
      · subst h2
        rw [show escChar bslashChar = [bslashChar, bslashChar] by
          simp [escChar, show bslashChar ≠ quoteChar by decide]]
        show parseStrBody (bslashChar :: bslashChar :: (escList s ++ quoteChar :: rest)) = _
        unfold parseStrBody
        simp [unescChar, ih, show bslashChar ≠ quoteChar by decide]
      · by_cases h3 : c = '\n'
        · subst h3
          rw [show escChar '\n' = [bslashChar, 'n'] by
            simp [escChar, show ('\n' : Char) ≠ quoteChar by decide,
              show ('\n' : Char) ≠ bslashChar by decide]]
          show parseStrBody (bslashChar :: 'n' :: (escList s ++ quoteChar :: rest)) = _
          unfold parseStrBody
          simp [unescChar, ih, show bslashChar ≠ quoteChar by decide,
            show ('n' : Char) ≠ quoteChar by decide, show ('n' : Char) ≠ bslashChar by decide]
        · by_cases h4 : c = '\t'
          · subst h4
            rw [show escChar '\t' = [bslashChar, 't'] by
              simp [escChar, show ('\t' : Char) ≠ quoteChar by decide,
                show ('\t' : Char) ≠ bslashChar by decide,
                show ('\t' : Char) ≠ '\n' by decide]]
            show parseStrBody (bslashChar :: 't' :: (escList s ++ quoteChar :: rest)) = _
            unfold parseStrBody
            simp [unescChar, ih, show bslashChar ≠ quoteChar by decide,
              show ('t' : Char) ≠ quoteChar by decide, show ('t' : Char) ≠ bslashChar by decide,
              show ('t' : Char) ≠ 'n' by decide]
          · by_cases h5 : c = '\r'
            · subst h5
              rw [show escChar '\r' = [bslashChar, 'r'] by
                simp [escChar, show ('\r' : Char) ≠ quoteChar by decide,
                  show ('\r' : Char) ≠ bslashChar by decide,
                  show ('\r' : Char) ≠ '\n' by decide, show ('\r' : Char) ≠ '\t' by decide]]
              show parseStrBody (bslashChar :: 'r' :: (escList s ++ quoteChar :: rest)) = _
              unfold parseStrBody
              simp [unescChar, ih, show bslashChar ≠ quoteChar by decide,
                show ('r' : Char) ≠ quoteChar by decide,
                show ('r' : Char) ≠ bslashChar by decide,
                show ('r' : Char) ≠ 'n' by decide, show ('r' : Char) ≠ 't' by decide]
            · rw [show escChar c = [c] by simp [escChar, h1, h2, h3, h4, h5]]
              show parseStrBody (c :: (escList s ++ quoteChar :: rest)) = _
              unfold parseStrBody
              simp [ih, h1, h2]

theorem render_head (j : Json) :
    ∃ c t, Json.render j = c :: t ∧ isWs c = false ∧ c ≠ ']' := by
  cases j with
  | null => exact ⟨'n', ['u', 'l', 'l'], by simp [Json.render, kwNull], by decide, by decide⟩
  | bool b =>
    cases b with
    | false =>
      exact ⟨'f', ['a', 'l', 's', 'e'], by simp [Json.render, kwFalse], by decide, by decide⟩
    | true => exact ⟨'t', ['r', 'u', 'e'], by simp [Json.render, kwTrue], by decide, by decide⟩
  | num n =>
    cases n with
    | ofNat m =>
      obtain ⟨c, t, hct⟩ := List.exists_cons_of_ne_nil (renderNat_ne_nil m)
      have hd : isDigitChar c = true := renderNat_digits m c (hct ▸ List.mem_cons_self c t)
      exact ⟨c, t, by simp [Json.render, renderInt, hct], isWs_of_digit hd, ne_rsqb_of_digit hd⟩
    | negSucc m =>
      exact ⟨'-', renderNat (m + 1), by simp [Json.render, renderInt], by decide, by decide⟩
  | str s =>
    exact ⟨quoteChar, escList s ++ [quoteChar], by simp [Json.render, renderStr],
      by decide, by decide⟩
  | arr xs =>
    cases xs with
    | nil => exact ⟨'[', [']'], by simp [Json.render], by decide, by decide⟩
    | cons x xs =>
      exact ⟨'[', Json.render x ++ (Json.renderElems xs ++ [']']), by simp [Json.render],
        by decide, by decide⟩
  | obj kvs =>
    cases kvs with
    | nil => exact ⟨lbrace, [rbrace], by simp [Json.render], by decide, by decide⟩
    | cons kv kvs =>
      obtain ⟨k, v⟩ := kv
      exact ⟨lbrace, renderStr k ++ ':' :: (Json.render v ++ (Json.renderMembers kvs ++ [rbrace])),
        by simp [Json.render], by decide, by decide⟩

theorem skipWs_render (j : Json) (r : List Char) :
    skipWs (Json.render j ++ r) = Json.render j ++ r := by
  obtain ⟨c, t, hct, hw, _⟩ := render_head j
  rw [hct, List.cons_append, skipWs_cons_of_not_ws hw]

theorem headNotDigit_elems (xs : List Json) (r : List Char) :
    headNotDigit (Json.renderElems xs ++ ']' :: r) = true := by
  cases xs with
  | nil =>
    rw [show Json.renderElems [] = [] by simp [Json.renderElems], List.nil_append]
    rfl
  | cons x xs =>
    rw [show Json.renderElems (x :: xs) = ',' :: Json.render x ++ Json.renderElems xs by
      simp [Json.renderElems], List.cons_append, List.cons_append]
    rfl

theorem headNotDigit_members (kvs : List (List Char × Json)) (r : List Char) :
    headNotDigit (Json.renderMembers kvs ++ rbrace :: r) = true := by
  cases kvs with
  | nil =>
    rw [show Json.renderMembers [] = [] by simp [Json.renderMembers], List.nil_append]
    rfl
  | cons kv kvs =>
    obtain ⟨k, v⟩ := kv
    rw [show Json.renderMembers ((k, v) :: kvs)
        = ',' :: renderStr k ++ ':' :: Json.render v ++ Json.renderMembers kvs by
      simp [Json.renderMembers], List.cons_append, List.cons_append]
    rfl

theorem parse_render_gen (fuel : Nat) :
    (∀ (j : Json) (rest : List Char), (Json.render j).length < fuel →
       headNotDigit rest = true → parseVal fuel (Json.render j ++ rest) = some (j, rest)) ∧
    (∀ (xs : List Json) (rest : List Char), (Json.renderElems xs).length < fuel →
       parseArrTail fuel (Json.renderElems xs ++ ']' :: rest) = some (xs, rest)) ∧
    (∀ (kvs : List (List Char × Json)) (rest : List Char),
       (Json.renderMembers kvs).length < fuel →
       parseObjTail fuel (Json.renderMembers kvs ++ rbrace :: rest) = some (kvs, rest)) := by
  induction fuel with
  | zero =>
    exact ⟨fun j _ h _ => absurd h (Nat.not_lt_zero _),
           fun xs _ h => absurd h (Nat.not_lt_zero _),
           fun kvs _ h => absurd h (Nat.not_lt_zero _)⟩
  | succ fuel ih =>
    obtain ⟨ihS, ihT, ihU⟩ := ih
    refine ⟨?_, ?_, ?_⟩
    · intro j rest hlen hrest
      cases j with
      | null =>
        rw [show Json.render .null = ['n', 'u', 'l', 'l'] by simp [Json.render, kwNull]]
        unfold parseVal
        rw [List.cons_append, skipWs_cons_of_not_ws (by decide)]
        simp [show isDigitChar 'n' = false by decide, show ('n' : Char) ≠ quoteChar by decide]
      | bool b =>
        cases b with
        | true =>
          rw [show Json.render (.bool true) = ['t', 'r', 'u', 'e'] by
            simp [Json.render, kwTrue]]
          unfold parseVal
          rw [List.cons_append, skipWs_cons_of_not_ws (by decide)]
          simp [show isDigitChar 't' = false by decide,
            show ('t' : Char) ≠ quoteChar by decide]
        | false =>
          rw [show Json.render (.bool false) = ['f', 'a', 'l', 's', 'e'] by
            simp [Json.render, kwFalse]]
          unfold parseVal
          rw [List.cons_append, skipWs_cons_of_not_ws (by decide)]
          simp [show isDigitChar 'f' = false by decide,
            show ('f' : Char) ≠ quoteChar by decide]
      | num n =>
        cases n with
        | ofNat m =>
          rw [show Json.render (.num (Int.ofNat m)) = renderNat m by
            simp [Json.render, renderInt]]
          obtain ⟨c, t, hct⟩ := List.exists_cons_of_ne_nil (renderNat_ne_nil m)
          have hd : isDigitChar c = true := renderNat_digits m c (hct ▸ List.mem_cons_self c t)
          have hpn : parseNat (c :: (t ++ rest)) = some (m, rest) := by
            rw [← List.cons_append, ← hct]
            exact parseNat_round m hrest
          rw [hct, List.cons_append]
          unfold parseVal
          rw [skipWs_cons_of_not_ws (isWs_of_digit hd)]
          simp [hd, hpn]
        | negSucc m =>
          rw [show Json.render (.num (Int.negSucc m)) = '-' :: renderNat (m + 1) by
            simp [Json.render, renderInt]]
          have hpn : parseNat (renderNat (m + 1) ++ rest) = some (m + 1, rest) :=
            parseNat_round _ hrest
          rw [List.cons_append]
          unfold parseVal
          rw [skipWs_cons_of_not_ws (by decide)]
          simp [hpn, show isDigitChar '-' = false by decide,
            show ('-' : Char) ≠ quoteChar by decide, Int.negSucc_eq]
      | str s =>
        rw [show Json.render (.str s) ++ rest = quoteChar :: (escList s ++ quoteChar :: rest) by
          simp [Json.render, renderStr]]
        unfold parseVal
        rw [skipWs_cons_of_not_ws (by decide)]
        simp [parseStrBody_round, show isDigitChar quoteChar = false by decide,
          show quoteChar ≠ '-' by decide]
      | arr xs =>
        cases xs with
        | nil =>
          rw [show Json.render (.arr []) = ['[', ']'] by simp [Json.render]]
          unfold parseVal
          rw [List.cons_append, skipWs_cons_of_not_ws (by decide)]
          simp [skipWs_cons_of_not_ws, show isWs ']' = false by decide,
            show isDigitChar '[' = false by decide,
            show ('[' : Char) ≠ quoteChar by decide, show ('[' : Char) ≠ lbrace by decide]
        | cons x xs =>
          have hsh : Json.render (.arr (x :: xs)) ++ rest
              = '[' :: (Json.render x ++ (Json.renderElems xs ++ ']' :: rest)) := by
            simp [Json.render]
          have hlx : (Json.render x).length < fuel := by
            have h2 : (Json.render (.arr (x :: xs))).length < fuel + 1 := hlen
            rw [show Json.render (.arr (x :: xs))
                = '[' :: (Json.render x ++ Json.renderElems xs) ++ [']'] by simp [Json.render]]
              at h2
            simp only [List.length_append, List.length_cons, List.length_singleton] at h2
            omega
          have hlxs : (Json.renderElems xs).length < fuel := by
            have h2 : (Json.render (.arr (x :: xs))).length < fuel + 1 := hlen
            rw [show Json.render (.arr (x :: xs))
                = '[' :: (Json.render x ++ Json.renderElems xs) ++ [']'] by simp [Json.render]]
              at h2
            simp only [List.length_append, List.length_cons, List.length_singleton] at h2
            omega
          have hS := ihS x (Json.renderElems xs ++ ']' :: rest) hlx (headNotDigit_elems xs rest)
          have hT := ihT xs rest hlxs
          obtain ⟨c2, t2, hct2, hw2, hne2⟩ := render_head x
          rw [hct2, List.cons_append] at hS
          have hsw : skipWs (Json.render x ++ (Json.renderElems xs ++ ']' :: rest))
              = c2 :: (t2 ++ (Json.renderElems xs ++ ']' :: rest)) := by
            rw [skipWs_render, hct2, List.cons_append]
          rw [hsh]
          unfold parseVal
          rw [skipWs_cons_of_not_ws (by decide)]
          simp [hsw, hS, hT, hne2, show isDigitChar '[' = false by decide,
            show ('[' : Char) ≠ quoteChar by decide, show ('[' : Char) ≠ lbrace by decide]
      | obj kvs =>
        cases kvs with
        | nil =>
          rw [show Json.render (.obj []) = [lbrace, rbrace] by simp [Json.render]]
          unfold parseVal
          rw [List.cons_append, skipWs_cons_of_not_ws (by decide)]
          simp [skipWs_cons_of_not_ws, show isWs rbrace = false by decide,
            show isDigitChar lbrace = false by decide, show lbrace ≠ '-' by decide,
            show lbrace ≠ quoteChar by decide, show lbrace ≠ 'n' by decide,
            show lbrace ≠ 't' by decide, show lbrace ≠ 'f' by decide,
            show lbrace ≠ '[' by decide]
        | cons kv kvs =>
          obtain ⟨k, v⟩ := kv
          have hsh : Json.render (.obj ((k, v) :: kvs)) ++ rest
              = lbrace :: (quoteChar :: (escList k ++ quoteChar ::
                  (':' :: (Json.render v ++ (Json.renderMembers kvs ++ rbrace :: rest))))) := by
            simp [Json.render, renderStr]
          have hlv : (Json.render v).length < fuel := by
            have h2 : (Json.render (.obj ((k, v) :: kvs))).length < fuel + 1 := hlen
            rw [show Json.render (.obj ((k, v) :: kvs))
                = lbrace :: (renderStr k ++ ':' :: Json.render v ++ Json.renderMembers kvs)
                  ++ [rbrace] by simp [Json.render]] at h2
            simp only [List.length_append, List.length_cons, List.length_singleton,
              renderStr, List.length_singleton] at h2
            omega
          have hlkvs : (Json.renderMembers kvs).length < fuel := by
            have h2 : (Json.render (.obj ((k, v) :: kvs))).length < fuel + 1 := hlen
            rw [show Json.render (.obj ((k, v) :: kvs))
                = lbrace :: (renderStr k ++ ':' :: Json.render v ++ Json.renderMembers kvs)
                  ++ [rbrace] by simp [Json.render]] at h2
            simp only [List.length_append, List.length_cons, List.length_singleton,
              renderStr, List.length_singleton] at h2
            omega
          have hS := ihS v (Json.renderMembers kvs ++ rbrace :: rest) hlv
            (headNotDigit_members kvs rest)
          have hU := ihU kvs rest hlkvs
          have hstr : parseStrBody (escList k ++ quoteChar ::
              (':' :: (Json.render v ++ (Json.renderMembers kvs ++ rbrace :: rest))))
              = some (k, ':' :: (Json.render v ++ (Json.renderMembers kvs ++ rbrace :: rest))) :=
            parseStrBody_round k _
          rw [hsh]
          unfold parseVal
          rw [skipWs_cons_of_not_ws (by decide)]
          simp [skipWs_cons_of_not_ws, show isWs quoteChar = false by decide,
            show isWs ':' = false by decide, hstr, hS, hU,
            show isDigitChar lbrace = false by decide, show lbrace ≠ '-' by decide,
            show lbrace ≠ quoteChar by decide, show lbrace ≠ 'n' by decide,
            show lbrace ≠ 't' by decide, show lbrace ≠ 'f' by decide,
            show lbrace ≠ '[' by decide, show quoteChar ≠ rbrace by decide]
    · intro xs rest hlen
      cases xs with
      | nil =>
        rw [show Json.renderElems [] = [] by simp [Json.renderElems], List.nil_append]
        unfold parseArrTail
        rw [skipWs_cons_of_not_ws (by decide)]
        simp
      | cons x xs =>
        have hsh : Json.renderElems (x :: xs) ++ ']' :: rest
            = ',' :: (Json.render x ++ (Json.renderElems xs ++ ']' :: rest)) := by
          simp [Json.renderElems]
        have hlx : (Json.render x).length < fuel := by
          rw [show Json.renderElems (x :: xs)
              = ',' :: Json.render x ++ Json.renderElems xs by simp [Json.renderElems]] at hlen
          simp only [List.length_append, List.length_cons] at hlen
          omega
        have hlxs : (Json.renderElems xs).length < fuel := by
          rw [show Json.renderElems (x :: xs)
              = ',' :: Json.render x ++ Json.renderElems xs by simp [Json.renderElems]] at hlen
          simp only [List.length_append, List.length_cons] at hlen
          omega
        have hS := ihS x (Json.renderElems xs ++ ']' :: rest) hlx (headNotDigit_elems xs rest)
        have hT := ihT xs rest hlxs
        rw [hsh]
        unfold parseArrTail
        rw [skipWs_cons_of_not_ws (by decide)]
        simp [hS, hT, show (',' : Char) ≠ ']' by decide]
    · intro kvs rest hlen
      cases kvs with
      | nil =>
        rw [show Json.renderMembers [] = [] by simp [Json.renderMembers], List.nil_append]
        unfold parseObjTail
        rw [skipWs_cons_of_not_ws (by decide)]
        simp
      | cons kv kvs =>
        obtain ⟨k, v⟩ := kv
        have hsh : Json.renderMembers ((k, v) :: kvs) ++ rbrace :: rest
            = ',' :: (quoteChar :: (escList k ++ quoteChar ::
                (':' :: (Json.render v ++ (Json.renderMembers kvs ++ rbrace :: rest))))) := by
          simp [Json.renderMembers, renderStr]
        have hlv : (Json.render v).length < fuel := by
          rw [show Json.renderMembers ((k, v) :: kvs)
              = ',' :: renderStr k ++ ':' :: Json.render v ++ Json.renderMembers kvs by
            simp [Json.renderMembers]] at hlen
          simp only [List.length_append, List.length_cons, renderStr,
            List.length_singleton] at hlen
          omega
        have hlkvs : (Json.renderMembers kvs).length < fuel := by
          rw [show Json.renderMembers ((k, v) :: kvs)
              = ',' :: renderStr k ++ ':' :: Json.render v ++ Json.renderMembers kvs by
            simp [Json.renderMembers]] at hlen
          simp only [List.length_append, List.length_cons, renderStr,
            List.length_singleton] at hlen
          omega
        have hS := ihS v (Json.renderMembers kvs ++ rbrace :: rest) hlv
          (headNotDigit_members kvs rest)
        have hU := ihU kvs rest hlkvs
        have hstr : parseStrBody (escList k ++ quoteChar ::
            (':' :: (Json.render v ++ (Json.renderMembers kvs ++ rbrace :: rest))))
            = some (k, ':' :: (Json.render v ++ (Json.renderMembers kvs ++ rbrace :: rest))) :=
          parseStrBody_round k _
        rw [hsh]
        unfold parseObjTail
        rw [skipWs_cons_of_not_ws (by decide)]
        simp [skipWs_cons_of_not_ws, show isWs quoteChar = false by decide,
          show isWs ':' = false by decide, hstr, hS, hU,
          show (',' : Char) ≠ rbrace by decide]

theorem json_loads_render (j : Json) : json_loads (Json.render j) = some j := by
  unfold json_loads
  have h := (parse_render_gen ((Json.render j).length + 1)).1 j [] (by omega) rfl
  rw [List.append_nil] at h
  rw [h]
  simp [skipWs]

/-! ## Checkpoint store (`save_incidents_to_temp`, `load_existing_incidents`) -/

/-- `save_incidents_to_temp` (lines 515-527): `json.dump(incidents, f, ...)`
writes the serialization of the whole collection; opening with mode `w`
truncates, so the resulting file content is a function of the collection
alone. -/
def save_incidents_to_temp (incidents : List Json) : List Char :=
  Json.render (Json.arr incidents)

/-- The file-level effect of one save: the previous content is discarded
(overwrite semantics of mode `w`). -/
def writeTempFile (_previous : Option (List Char)) (incidents : List Json) :
    Option (List Char) :=
  some (save_incidents_to_temp incidents)

/-- `load_existing_incidents` (lines 496-512): an absent file yields `[]`; a
file that `json.load` fails on is caught and yields `[]`; a successfully
decoded JSON value is returned as-is (no array check is performed here). -/
def load_existing_incidents (file : Option (List Char)) : Json :=
  match file with
  | none => Json.arr []
  | some content =>
    match json_loads content with
    | some v => v
    | none => Json.arr []

/-- C6: saving a record collection to the checkpoint file and loading it back
returns the same collection, order preserved. -/
theorem checkpoint_round_trip (X : List Json) :
    load_existing_incidents (some (save_incidents_to_temp X)) = Json.arr X := by
  simp [load_existing_incidents, save_incidents_to_temp, json_loads_render]

/-- C9: a checkpoint file that exists but does not decode as JSON loads as the
empty collection, identically to an absent file, and the next save overwrites
it with content independent of what was there. -/
theorem unreadable_checkpoint_empty (content : List Char)
    (h : json_loads content = none) :
    load_existing_incidents (some content) = Json.arr []
    ∧ load_existing_incidents (some content) = load_existing_incidents none
    ∧ (∀ X : List Json, writeTempFile (some content) X = writeTempFile none X)
    ∧ (∀ X : List Json, writeTempFile (some content) X = some (save_incidents_to_temp X)) :=
  ⟨by simp [load_existing_incidents, h], by simp [load_existing_incidents, h],
   fun X => rfl, fun X => rfl⟩

/-- Witness for C9 at the concrete unreadable content `"x"`. -/
theorem unreadable_checkpoint_empty_witness :
    json_loads ['x'] = none ∧ load_existing_incidents (some ['x']) = Json.arr [] :=
  ⟨rfl, (unreadable_checkpoint_empty ['x'] rfl).1⟩

/-! ## Response parsing (`generate_incident_batch`, lines 452-485) -/

/-- Python `str.strip()` on the left. -/
def lstrip (l : List Char) : List Char := l.dropWhile isPySpace

/-- Python `str.strip()` on the right. -/
def rstrip (l : List Char) : List Char := (l.reverse.dropWhile isPySpace).reverse

/-- Python `str.strip()`. -/
def pystrip (l : List Char) : List Char := rstrip (lstrip l)

/-- Python `content.startswith("```")`. -/
def startsFence : List Char → Bool
  | c1 :: c2 :: c3 :: _ => c1 = btick && c2 = btick && c3 = btick
  | _ => false

/-- Python `content.split("\n")`: split at every newline, keeping empty
lines; the result is always non-empty. -/
def splitNL : List Char → List (List Char)
  | [] => [[]]
  | c :: rest =>
    if c = '\n' then [] :: splitNL rest
    else
      match splitNL rest with
      | [] => [[c]]
      | l :: ls => (c :: l) :: ls

/-- Python `"\n".join(lines)`. -/
def joinNL : List (List Char) → List Char
  | [] => []
  | [l] => l
  | l :: l2 :: ls => l ++ '\n' :: joinNL (l2 :: ls)

/-- The fence-stripping steps of `generate_incident_batch` (lines 452-467):
strip; if the payload starts with a fence, drop every line starting with a
fence, re-join with newlines and strip again. -/
def fence_stripped (raw : List Char) : List Char :=
  if startsFence (pystrip raw) then
    pystrip (joinNL ((splitNL (pystrip raw)).filter (fun l => !startsFence l)))
  else pystrip raw

/-- The whole response-parsing step of `generate_incident_batch`
(lines 452-485): decode the fence-stripped text as JSON and require a JSON
array (`isinstance(incidents, list)`); any failure raises and is reported as
`none`.  The elements themselves are passed through without validation. -/
def parse_llm_response (raw : List Char) : Option (List Json) :=
  match json_loads (fence_stripped raw) with
  | some (Json.arr xs) => some xs
  | _ => none

theorem splitNL_ne_nil (s : List Char) : splitNL s ≠ [] := by
  cases s with
  | nil => simp [splitNL]
  | cons c rest =>
    unfold splitNL
    split
    · simp
    · cases h : splitNL rest <;> simp

theorem splitNL_append (A B : List Char) :
    splitNL (A ++ '\n' :: B) = splitNL A ++ splitNL B := by
  induction A with
  | nil => simp [splitNL]
  | cons c A ih =>
    by_cases hc : c = '\n'
    · subst hc
      rw [List.cons_append]
      rw [show splitNL ('\n' :: (A ++ '\n' :: B)) = [] :: splitNL (A ++ '\n' :: B) by
        simp [splitNL]]
      rw [show splitNL ('\n' :: A) = [] :: splitNL A by simp [splitNL]]
      rw [ih, List.cons_append]
    · obtain ⟨l, ls, hls⟩ := List.exists_cons_of_ne_nil (splitNL_ne_nil A)
      rw [List.cons_append]
      rw [show splitNL (c :: (A ++ '\n' :: B)) =
          match splitNL (A ++ '\n' :: B) with
          | [] => [[c]]
          | l :: ls => (c :: l) :: ls by simp [splitNL, hc]]
      rw [show splitNL (c :: A) =
          match splitNL A with
          | [] => [[c]]
          | l :: ls => (c :: l) :: ls by simp [splitNL, hc]]
      rw [ih, hls, List.cons_append]
      simp

theorem splitNL_no_nl (A : List Char) (h : ∀ c ∈ A, c ≠ '\n') : splitNL A = [A] := by
  induction A with
  | nil => simp [splitNL]
  | cons c A ih =>
    have hc : ¬ c = '\n' := h c (by simp)
    rw [show splitNL (c :: A) =
        match splitNL A with
        | [] => [[c]]
        | l :: ls => (c :: l) :: ls by simp [splitNL, hc]]
    rw [ih (fun x hx => h x (by simp [hx]))]

theorem joinNL_splitNL (s : List Char) : joinNL (splitNL s) = s := by
  induction s with
  | nil => simp [splitNL, joinNL]
  | cons c rest ih =>
    obtain ⟨l, ls, hls⟩ := List.exists_cons_of_ne_nil (splitNL_ne_nil rest)
    by_cases hc : c = '\n'
    · subst hc
      rw [show splitNL ('\n' :: rest) = [] :: splitNL rest by simp [splitNL]]
      rw [hls]
      rw [show joinNL ([] :: l :: ls) = [] ++ '\n' :: joinNL (l :: ls) by simp [joinNL]]
      rw [← hls, ih, List.nil_append]
    · rw [show splitNL (c :: rest) =
          match splitNL rest with
          | [] => [[c]]
          | l :: ls => (c :: l) :: ls by simp [splitNL, hc]]
      rw [hls]
      cases ls with
      | nil =>
        show joinNL [c :: l] = c :: rest
        rw [show joinNL [c :: l] = c :: l by simp [joinNL]]
        have : joinNL [l] = l := by simp [joinNL]
        rw [hls] at ih
        rw [this] at ih
        rw [ih]
      | cons l2 ls =>
        show joinNL ((c :: l) :: l2 :: ls) = c :: rest
        rw [show joinNL ((c :: l) :: l2 :: ls) = (c :: l) ++ '\n' :: joinNL (l2 :: ls) by
          simp [joinNL]]
        rw [hls] at ih
        rw [show joinNL (l :: l2 :: ls) = l ++ '\n' :: joinNL (l2 :: ls) by simp [joinNL]] at ih
        rw [List.cons_append, ih]

theorem dropWhile_append_all {p : Char → Bool} {l : List Char} (r : List Char)
    (hl : ∀ c ∈ l, p c = true) : (l ++ r).dropWhile p = r.dropWhile p := by
  induction l with
  | nil => simp
  | cons c t ih =>
    rw [List.cons_append, List.dropWhile_cons, if_pos (hl c (by simp)),
        ih (fun x hx => hl x (by simp [hx]))]

theorem lstrip_append_space {ws : List Char} (l : List Char)
    (h : ∀ c ∈ ws, isPySpace c = true) : lstrip (ws ++ l) = lstrip l :=
  dropWhile_append_all l h

theorem lstrip_cons_of_not_space {c : Char} (h : isPySpace c = false) (t : List Char) :
    lstrip (c :: t) = c :: t := by
  simp [lstrip, List.dropWhile_cons, h]

theorem rstrip_append_space {ws : List Char} (l : List Char)
    (h : ∀ c ∈ ws, isPySpace c = true) : rstrip (l ++ ws) = rstrip l := by
  unfold rstrip
  rw [List.reverse_append, dropWhile_append_all _ (fun c hc => h c (List.mem_reverse.mp hc))]

theorem rstrip_concat_of_not_space {c : Char} (h : isPySpace c = false) (l : List Char) :
    rstrip (l ++ [c]) = l ++ [c] := by
  unfold rstrip
  rw [List.reverse_append]
  simp [List.dropWhile_cons, h]

/-- C7: a JSON array text wrapped in leading/trailing triple-backtick fence
lines (with or without a language tag) and surrounding whitespace parses to
exactly the same result as the bare text.  The hypotheses record that `J` is
an ordinary JSON array text: no line of it is a fence line and its stripped
form does not begin with a fence. -/
theorem fence_stripping_equiv (J tag wsl wsr : List Char)
    (hwsl : ∀ c ∈ wsl, isPySpace c = true)
    (hwsr : ∀ c ∈ wsr, isPySpace c = true)
    (htag : ∀ c ∈ tag, c ≠ '\n')
    (hJ1 : startsFence (pystrip J) = false)
    (hJ2 : ∀ l ∈ splitNL J, startsFence l = false) :
    parse_llm_response
      (wsl ++ btick :: btick :: btick :: tag ++ '\n' :: J ++ '\n' :: btick :: btick :: btick :: wsr)
      = parse_llm_response J := by
  have hb : isPySpace btick = false := by decide
  rw [show wsl ++ btick :: btick :: btick :: tag ++ '\n' :: J
        ++ '\n' :: btick :: btick :: btick :: wsr
      = wsl ++ ((btick :: btick :: btick ::
          (tag ++ '\n' :: (J ++ '\n' :: [btick, btick, btick]))) ++ wsr) by simp]
  have hstrip : pystrip (wsl ++ ((btick :: btick :: btick ::
        (tag ++ '\n' :: (J ++ '\n' :: [btick, btick, btick]))) ++ wsr))
      = btick :: btick :: btick :: (tag ++ '\n' :: (J ++ '\n' :: [btick, btick, btick])) := by
    unfold pystrip
    rw [lstrip_append_space _ hwsl, List.cons_append, List.cons_append, List.cons_append,
        lstrip_cons_of_not_space hb]
    rw [show btick :: btick :: btick ::
          ((tag ++ '\n' :: (J ++ '\n' :: [btick, btick, btick])) ++ wsr)
        = (btick :: btick :: btick :: (tag ++ '\n' :: (J ++ '\n' :: [btick, btick])))
          ++ [btick] ++ wsr by simp]
    rw [rstrip_append_space _ hwsr, rstrip_concat_of_not_space hb]
    simp
  have hfs : fence_stripped (wsl ++ ((btick :: btick :: btick ::
        (tag ++ '\n' :: (J ++ '\n' :: [btick, btick, btick]))) ++ wsr))
      = fence_stripped J := by
    unfold fence_stripped
    rw [hstrip, hJ1]
    rw [if_pos (show startsFence (btick :: btick :: btick ::
        (tag ++ '\n' :: (J ++ '\n' :: [btick, btick, btick]))) = true from rfl)]
    rw [if_neg (by simp)]
    rw [show btick :: btick :: btick :: (tag ++ '\n' :: (J ++ '\n' :: [btick, btick, btick]))
        = (btick :: btick :: btick :: tag) ++ '\n' :: (J ++ '\n' :: [btick, btick, btick]) by
      simp]
    rw [splitNL_append, splitNL_append]
    rw [splitNL_no_nl (btick :: btick :: btick :: tag) (by
      intro c hc
      simp only [List.mem_cons] at hc
      rcases hc with rfl | rfl | rfl | h
      · decide
      · decide
      · decide
      · exact htag c h)]
    rw [splitNL_no_nl [btick, btick, btick] (by decide)]
    rw [List.filter_append, List.filter_append]
    rw [show List.filter (fun l => !startsFence l) [btick :: btick :: btick :: tag] = [] by
      simp [startsFence]]
    rw [show List.filter (fun l => !startsFence l) [[btick, btick, btick]] = [] by
      simp [startsFence]]
    rw [List.filter_eq_self.mpr (fun l hl => by rw [hJ2 l hl]; rfl)]
    rw [List.nil_append, List.append_nil, joinNL_splitNL]
  unfold parse_llm_response
  rw [hfs]

/-- Witness for C7: wrapping `[1]` in a ```json fence with surrounding
whitespace parses identically to the bare `[1]`. -/
theorem fence_stripping_equiv_witness :
    (∀ c ∈ [' '], isPySpace c = true) ∧ (∀ c ∈ ['\n'], isPySpace c = true)
    ∧ (∀ c ∈ ['j', 's', 'o', 'n'], c ≠ '\n')
    ∧ startsFence (pystrip ['[', '1', ']']) = false
    ∧ (∀ l ∈ splitNL ['[', '1', ']'], startsFence l = false)
    ∧ parse_llm_response
        ([' '] ++ btick :: btick :: btick :: ['j', 's', 'o', 'n']
          ++ '\n' :: ['[', '1', ']'] ++ '\n' :: btick :: btick :: btick :: ['\n'])
      = parse_llm_response ['[', '1', ']'] :=
  ⟨by decide, by decide, by decide, by decide, by decide,
   fence_stripping_equiv ['[', '1', ']'] ['j', 's', 'o', 'n'] [' '] ['\n']
     (by decide) (by decide) (by decide) (by decide) (by decide)⟩

/-- C8: the response parse fails exactly when the fence-stripped text does not
decode as JSON or decodes to a non-array value; on success the decoded
array's elements are returned unchanged, with no per-field validation. -/
theorem parse_error_iff (raw : List Char) :
    (parse_llm_response raw = none ↔
      (json_loads (fence_stripped raw) = none ∨
        ∃ v, json_loads (fence_stripped raw) = some v ∧ ∀ xs, v ≠ Json.arr xs)) ∧
    (∀ xs, parse_llm_response raw = some xs ↔
      json_loads (fence_stripped raw) = some (Json.arr xs)) := by
  unfold parse_llm_response
  rcases h : json_loads (fence_stripped raw) with _ | v
  · simp
  · cases v with
    | null =>
      refine ⟨⟨fun _ => Or.inr ⟨Json.null, rfl, fun xs => by simp⟩, fun _ => rfl⟩, fun xs => ?_⟩
      constructor
      · intro hx
        exact absurd hx (by simp)
      · intro hx
        exact absurd (Option.some.inj hx) (by simp)
    | bool b =>
      refine ⟨⟨fun _ => Or.inr ⟨Json.bool b, rfl, fun xs => by simp⟩, fun _ => rfl⟩, fun xs => ?_⟩
      constructor
      · intro hx
        exact absurd hx (by simp)
      · intro hx
        exact absurd (Option.some.inj hx) (by simp)
    | num n =>
      refine ⟨⟨fun _ => Or.inr ⟨Json.num n, rfl, fun xs => by simp⟩, fun _ => rfl⟩, fun xs => ?_⟩
      constructor
      · intro hx
        exact absurd hx (by simp)
      · intro hx
        exact absurd (Option.some.inj hx) (by simp)
    | str s =>
      refine ⟨⟨fun _ => Or.inr ⟨Json.str s, rfl, fun xs => by simp⟩, fun _ => rfl⟩, fun xs => ?_⟩
      constructor
      · intro hx
        exact absurd hx (by simp)
      · intro hx
        exact absurd (Option.some.inj hx) (by simp)
    | arr elems =>
      refine ⟨⟨fun hx => absurd hx (by simp), fun hcon => ?_⟩, fun xs => ?_⟩
      · rcases hcon with hn | ⟨v, hv, hne⟩
        · exact absurd hn (by simp)
        · exact absurd (hne elems) (by simp [Option.some.inj hv])
      · constructor
        · intro hx
          rw [Option.some.inj hx]
        · intro hx
          rw [Option.some.inj hx]
    | obj kvs =>
      refine ⟨⟨fun _ => Or.inr ⟨Json.obj kvs, rfl, fun xs => by simp⟩, fun _ => rfl⟩, fun xs => ?_⟩
      constructor
      · intro hx
        exact absurd hx (by simp)
      · intro hx
        exact absurd (Option.some.inj hx) (by simp)

/-! ## Orchestrator (`main`, lines 641-742)

The run state pairs the in-memory collection `all_incidents` with the content
of the checkpoint file (`none` when absent).  One *round* of the generation
loop submits a list of batch jobs computed from the snapshot length, then
collects each job's outcome in completion order: `some records` for a batch
that succeeded, `none` for one whose exception was caught at the job
boundary.  Because `as_completed` yields futures in an arbitrary order, the
completion order enters as data, constrained only to be a permutation of the
dispatched jobs. -/

structure OrchState where
  all_incidents : List Json
  temp_file : Option (List Char)

/-- `(remaining + BATCH_SIZE - 1) // BATCH_SIZE` (line 678). -/
def ceilBatches (remaining batchSize : Nat) : Nat :=
  (remaining + batchSize - 1) / batchSize

/-- Body of the submission loop (lines 678-697) over the iteration indices:
break when the offset reaches the target or the clipped size is zero,
otherwise emit `(batch_start_count, current_batch_size)`. -/
def dispatchAux (total current batchSize : Nat) : List Nat → List (Nat × Nat)
  | [] => []
  | i :: is =>
    if total ≤ current + i * batchSize then []
    else if min batchSize (total - current - i * batchSize) = 0 then []
    else (current + i * batchSize, min batchSize (total - current - i * batchSize))
        :: dispatchAux total current batchSize is

/-- One dispatch round (lines 673-697).  `len(all_incidents)` cannot change
while jobs are being submitted — results are only collected afterwards in the
same thread — so it enters as the single snapshot `current`. -/
def dispatchRound (total current batchSize numWorkers : Nat) : List (Nat × Nat) :=
  dispatchAux total current batchSize
    (List.range (min numWorkers (ceilBatches (total - current) batchSize)))

/-- One round's completed jobs, in completion order: the job `(offset, size)`
with its outcome. -/
abbrev Round := List ((Nat × Nat) × Option (List Json))

/-- Result collection (lines 699-713): on success extend the collection and
save it to the temp file; on failure only log and continue. -/
def collectRound (st : OrchState) : Round → OrchState
  | [] => st
  | (_, none) :: rest => collectRound st rest
  | (_, some recs) :: rest =>
      collectRound
        { all_incidents := st.all_incidents ++ recs,
          temp_file := writeTempFile st.temp_file (st.all_incidents ++ recs) } rest

/-- Iterate the collection step over a trace of rounds. -/
def runTrace (st : OrchState) (tr : List Round) : OrchState :=
  tr.foldl collectRound st

/-- Executable permutation check. -/
def permEq {α : Type} [DecidableEq α] : List α → List α → Bool
  | [], [] => true
  | [], _ :: _ => false
  | a :: l, r => if a ∈ r then permEq l (r.erase a) else false

/-- A trace is a faithful run of the `while` loop (lines 672-713): each round
runs only while the length snapshot is below the target, and its completed
jobs are a permutation of that snapshot's dispatch. -/
def validTrace (total batchSize numWorkers : Nat) : OrchState → List Round → Bool
  | _, [] => true
  | st, r :: rs =>
    decide (st.all_incidents.length < total)
    && permEq (r.map Prod.fst)
        (dispatchRound total st.all_incidents.length batchSize numWorkers)
    && validTrace total batchSize numWorkers (collectRound st r) rs

/-- Every batch of the round succeeded with exactly its requested count. -/
def exactRound (r : Round) : Bool :=
  r.all fun e =>
    match e.2 with
    | some l => l.length == e.1.2
    | none => false

/-- Every batch of every round succeeded with exactly its requested count. -/
def exactTrace (tr : List Round) : Bool := tr.all exactRound

/-- Number of records delivered by the round's successful batches. -/
def deliveredRound (r : Round) : Nat :=
  (r.map fun e =>
    match e.2 with
    | some l => l.length
    | none => 0).sum

/-- Sum of the requested batch sizes of a round. -/
def requestedRound (r : Round) : Nat := (r.map fun e => e.1.2).sum

/-- Sum of the requested batch sizes over a whole trace. -/
def requestedTrace (tr : List Round) : Nat := (tr.map requestedRound).sum

/-- Records delivered by the round's successful batches, in completion
order. -/
def successRecords : Round → List Json
  | [] => []
  | (_, none) :: rest => successRecords rest
  | (_, some recs) :: rest => recs ++ successRecords rest

/-- Records appended over a whole trace. -/
def traceRecords : List Round → List Json
  | [] => []
  | r :: rs => successRecords r ++ traceRecords rs

/-- Whether some batch of the round succeeded. -/
def hasSuccess (r : Round) : Bool := r.any fun e => e.2.isSome

/-- The `except KeyboardInterrupt` handler (lines 733-736): it prints three
messages and falls off the end of `main`; neither the collection nor the
checkpoint file is touched — in particular no checkpoint save happens here. -/
def keyboard_interrupt_handler (st : OrchState) : OrchState := st

/-- The `except Exception` handler (lines 738-742): it prints and re-raises;
neither the collection nor the checkpoint file is touched — no checkpoint
save happens here either. -/
def fatal_error_handler (st : OrchState) : OrchState := st

/-- Modelled from the spec: §7 claims `UserInterrupt` (and any other fatal
failure) "triggers a best-effort final checkpoint save" — i.e. the checkpoint
file is rewritten from the in-memory collection at termination.  Stated for
comparison with the two handlers above; the source contains no such save. -/
def final_save_on_termination (st : OrchState) : OrchState :=
  { st with temp_file := writeTempFile st.temp_file st.all_incidents }

theorem permEq_iff {α : Type} [DecidableEq α] :
    ∀ (l r : List α), permEq l r = true ↔ l.Perm r := by
  intro l
  induction l with
  | nil =>
    intro r
    cases r with
    | nil => simp [permEq]
    | cons a r => simp [permEq]
  | cons a l ih =>
    intro r
    by_cases h : a ∈ r
    · rw [show permEq (a :: l) r = permEq l (r.erase a) by simp [permEq, h]]
      rw [ih (r.erase a), List.cons_perm_iff_perm_erase]
      simp [h]
    · rw [show permEq (a :: l) r = false by simp [permEq, h]]
      rw [List.cons_perm_iff_perm_erase]
      simp [h]

theorem collectRound_all (r : Round) :
    ∀ st : OrchState, (collectRound st r).all_incidents
      = st.all_incidents ++ successRecords r := by
  induction r with
  | nil => intro st; simp [collectRound, successRecords]
  | cons e rest ih =>
    intro st
    obtain ⟨j, o⟩ := e
    cases o with
    | none => simp [collectRound, successRecords, ih]
    | some recs => simp [collectRound, successRecords, ih, List.append_assoc]

theorem successRecords_length (r : Round) :
    (successRecords r).length = deliveredRound r := by
  induction r with
  | nil => simp [successRecords, deliveredRound]
  | cons e rest ih =>
    obtain ⟨j, o⟩ := e
    cases o with
    | none => simp [successRecords, deliveredRound, List.map_cons, List.sum_cons] at ih ⊢; omega
    | some recs =>
      simp [successRecords, deliveredRound, List.map_cons, List.sum_cons] at ih ⊢
      omega

theorem deliveredRound_exact {r : Round} (h : exactRound r = true) :
    deliveredRound r = requestedRound r := by
  induction r with
  | nil => simp [deliveredRound, requestedRound]
  | cons e rest ih =>
    obtain ⟨j, o⟩ := e
    simp only [exactRound, List.all_cons, Bool.and_eq_true] at h
    cases o with
    | none => exact absurd h.1 (by simp)
    | some recs =>
      have hl : recs.length = j.2 := by
        have := h.1
        simpa using this
      have := ih (by simpa [exactRound] using h.2)
      simp [deliveredRound, requestedRound, List.map_cons, List.sum_cons] at this ⊢
      omega

theorem no_success_records {r : Round} (h : hasSuccess r = false) :
    successRecords r = [] := by
  induction r with
  | nil => simp [successRecords]
  | cons e rest ih =>
    obtain ⟨j, o⟩ := e
    simp only [hasSuccess, List.any_cons, Bool.or_eq_false_iff] at h
    cases o with
    | none => simpa [successRecords, hasSuccess] using ih h.2
    | some recs => exact absurd h.1 (by simp)

theorem collect_temp (r : Round) :
    ∀ st : OrchState, (collectRound st r).temp_file
      = if hasSuccess r = true
        then some (save_incidents_to_temp (collectRound st r).all_incidents)
        else st.temp_file := by
  induction r with
  | nil => intro st; simp [collectRound, hasSuccess]
  | cons e rest ih =>
    intro st
    obtain ⟨j, o⟩ := e
    cases o with
    | none =>
      rw [show collectRound st ((j, none) :: rest) = collectRound st rest by
        simp [collectRound]]
      rw [ih st]
      rw [show hasSuccess ((j, none) :: rest) = hasSuccess rest by simp [hasSuccess]]
    | some recs =>
      rw [show collectRound st ((j, some recs) :: rest)
          = collectRound
              { all_incidents := st.all_incidents ++ recs,
                temp_file := writeTempFile st.temp_file (st.all_incidents ++ recs) } rest by
        simp [collectRound]]
      have hcons : hasSuccess ((j, some recs) :: rest) = true := by simp [hasSuccess]
      rw [if_pos hcons, ih]
      by_cases hs : hasSuccess rest = true
      · rw [if_pos hs]
      · rw [if_neg hs]
        have hnil : successRecords rest = [] :=
          no_success_records (by simpa using hs)
        rw [collectRound_all, hnil, List.append_nil]
        rfl

theorem runTrace_records (tr : List Round) :
    ∀ st : OrchState, (runTrace st tr).all_incidents
      = st.all_incidents ++ traceRecords tr := by
  induction tr with
  | nil => intro st; simp [runTrace, traceRecords]
  | cons r rs ih =>
    intro st
    rw [show runTrace st (r :: rs) = runTrace (collectRound st r) rs from rfl]
    rw [ih, collectRound_all,
        show traceRecords (r :: rs) = successRecords r ++ traceRecords rs by
          simp [traceRecords],
        List.append_assoc]

theorem mul_lt_of_lt_ceil {R B i : Nat} (hB : 1 ≤ B) (hR : 1 ≤ R)
    (h : i < ceilBatches R B) : i * B < R := by
  unfold ceilBatches at h
  have h1 : (i + 1) * B ≤ ((R + B - 1) / B) * B := Nat.mul_le_mul_right B h
  have h2 : ((R + B - 1) / B) * B ≤ R + B - 1 := Nat.div_mul_le_self _ _
  have h3 : (i + 1) * B = i * B + B := by ring
  omega

theorem dispatchAux_eq_map {total current batchSize : Nat} (hB : 1 ≤ batchSize)
    (is : List Nat) (h : ∀ i ∈ is, current + i * batchSize < total) :
    dispatchAux total current batchSize is
      = is.map (fun i => (current + i * batchSize,
          min batchSize (total - current - i * batchSize))) := by
  induction is with
  | nil => simp [dispatchAux]
  | cons i is ih =>
    have hi := h i (by simp)
    rw [show dispatchAux total current batchSize (i :: is)
        = (current + i * batchSize, min batchSize (total - current - i * batchSize))
          :: dispatchAux total current batchSize is by
      simp [dispatchAux, show ¬ total ≤ current + i * batchSize by omega,
        show ¬ min batchSize (total - current - i * batchSize) = 0 by omega]]
    rw [ih (fun x hx => h x (by simp [hx]))]
    simp

theorem dispatchRound_eq_map {total current batchSize numWorkers : Nat}
    (hB : 1 ≤ batchSize) (hlt : current < total) :
    dispatchRound total current batchSize numWorkers
      = (List.range (min numWorkers (ceilBatches (total - current) batchSize))).map
          (fun i => (current + i * batchSize,
            min batchSize (total - current - i * batchSize))) := by
  apply dispatchAux_eq_map hB
  intro i hi
  rw [List.mem_range] at hi
  have h1 : i < ceilBatches (total - current) batchSize :=
    lt_of_lt_of_le hi (min_le_right _ _)
  have h2 : i * batchSize < total - current := mul_lt_of_lt_ceil hB (by omega) h1
  omega

theorem sum_min_sizes (B R : Nat) (n : Nat) :
    ((List.range n).map (fun i => min B (R - i * B))).sum = min (n * B) R := by
  induction n with
  | zero => simp
  | succ n ih =>
    rw [List.range_succ, List.map_append, List.sum_append, ih]
    simp only [List.map_cons, List.map_nil, List.sum_cons, List.sum_nil]
    have h3 : (n + 1) * B = n * B + B := by ring
    omega

theorem round_step {total batchSize numWorkers : Nat} {st : OrchState} {r : Round}
    (hB : 1 ≤ batchSize) (hlt : st.all_incidents.length < total)
    (hperm : permEq (r.map Prod.fst)
      (dispatchRound total st.all_incidents.length batchSize numWorkers) = true)
    (hexact : exactRound r = true) :
    (collectRound st r).all_incidents.length
      = st.all_incidents.length
        + min (min numWorkers (ceilBatches (total - st.all_incidents.length) batchSize)
            * batchSize) (total - st.all_incidents.length)
    ∧ requestedRound r
      = min (min numWorkers (ceilBatches (total - st.all_incidents.length) batchSize)
          * batchSize) (total - st.all_incidents.length) := by
  have hp := (permEq_iff _ _).mp hperm
  have hreq : requestedRound r
      = min (min numWorkers (ceilBatches (total - st.all_incidents.length) batchSize)
          * batchSize) (total - st.all_incidents.length) := by
    have hsum : requestedRound r
        = ((dispatchRound total st.all_incidents.length batchSize numWorkers).map
            Prod.snd).sum := by
      have := (hp.map Prod.snd).sum_eq
      rw [List.map_map] at this
      exact this
    rw [hsum, dispatchRound_eq_map hB hlt, List.map_map]
    exact sum_min_sizes batchSize (total - st.all_incidents.length) _
  refine ⟨?_, hreq⟩
  rw [collectRound_all, List.length_append, successRecords_length,
      deliveredRound_exact hexact, hreq]

theorem run_exact {total batchSize numWorkers : Nat} (hB : 1 ≤ batchSize) :
    ∀ (tr : List Round) (st : OrchState), st.all_incidents.length ≤ total →
    validTrace total batchSize numWorkers st tr = true → exactTrace tr = true →
    (runTrace st tr).all_incidents.length = st.all_incidents.length + requestedTrace tr
    ∧ (runTrace st tr).all_incidents.length ≤ total := by
  intro tr
  induction tr with
  | nil =>
    intro st hle _ _
    exact ⟨by simp [runTrace, requestedTrace], by simpa [runTrace] using hle⟩
  | cons r rs ih =>
    intro st hle hv he
    simp only [validTrace, Bool.and_eq_true, decide_eq_true_eq] at hv
    obtain ⟨⟨hlt, hperm⟩, hvrest⟩ := hv
    simp only [exactTrace, List.all_cons, Bool.and_eq_true] at he
    obtain ⟨her, hers⟩ := he
    obtain ⟨hlen, hreq⟩ := round_step hB hlt hperm her
    have hle2 : (collectRound st r).all_incidents.length ≤ total := by
      rw [hlen]; omega
    have hrest := ih (collectRound st r) hle2 hvrest (by simpa [exactTrace] using hers)
    rw [show runTrace st (r :: rs) = runTrace (collectRound st r) rs from rfl]
    constructor
    · rw [hrest.1, hlen,
        show requestedTrace (r :: rs) = requestedRound r + requestedTrace rs by
          simp [requestedTrace], hreq]
      omega
    · exact hrest.2

/-- The deterministic all-success round: every dispatched job returns exactly
its requested number of records. -/
def perfectRound (total batchSize numWorkers : Nat) (st : OrchState) : Round :=
  (dispatchRound total st.all_incidents.length batchSize numWorkers).map
    (fun j => (j, some (List.replicate j.2 Json.null)))

/-- Iterating all-success rounds until the target is reached (or fuel runs
out). -/
def perfectTrace (total batchSize numWorkers : Nat) : Nat → OrchState → List Round
  | 0, _ => []
  | fuel + 1, st =>
    if st.all_incidents.length < total then
      perfectRound total batchSize numWorkers st
        :: perfectTrace total batchSize numWorkers fuel
            (collectRound st (perfectRound total batchSize numWorkers st))
    else []

theorem perfectRound_fst (total batchSize numWorkers : Nat) (st : OrchState) :
    (perfectRound total batchSize numWorkers st).map Prod.fst
      = dispatchRound total st.all_incidents.length batchSize numWorkers := by
  unfold perfectRound
  rw [List.map_map]
  exact List.map_id _

theorem perfectRound_exact (total batchSize numWorkers : Nat) (st : OrchState) :
    exactRound (perfectRound total batchSize numWorkers st) = true := by
  unfold exactRound perfectRound
  rw [List.all_eq_true]
  intro e he
  rw [List.mem_map] at he
  obtain ⟨j, _, rfl⟩ := he
  simp

theorem perfectTrace_valid (total batchSize numWorkers : Nat) :
    ∀ (fuel : Nat) (st : OrchState),
    validTrace total batchSize numWorkers st
      (perfectTrace total batchSize numWorkers fuel st) = true := by
  intro fuel
  induction fuel with
  | zero => intro st; simp [perfectTrace, validTrace]
  | succ fuel ih =>
    intro st
    unfold perfectTrace
    by_cases hlt : st.all_incidents.length < total
    · rw [if_pos hlt]
      simp only [validTrace, Bool.and_eq_true, decide_eq_true_eq]
      exact ⟨⟨hlt, by rw [perfectRound_fst]; exact (permEq_iff _ _).mpr (List.Perm.refl _)⟩,
        ih _⟩
    · rw [if_neg hlt]
      simp [validTrace]

theorem perfectTrace_exact (total batchSize numWorkers : Nat) :
    ∀ (fuel : Nat) (st : OrchState),
    exactTrace (perfectTrace total batchSize numWorkers fuel st) = true := by
  intro fuel
  induction fuel with
  | zero => intro st; simp [perfectTrace, exactTrace]
  | succ fuel ih =>
    intro st
    unfold perfectTrace
    by_cases hlt : st.all_incidents.length < total
    · rw [if_pos hlt]
      simp only [exactTrace, List.all_cons, Bool.and_eq_true]
      exact ⟨perfectRound_exact _ _ _ _, by simpa [exactTrace] using ih _⟩
    · rw [if_neg hlt]
      simp [exactTrace]

theorem perfectTrace_complete {total batchSize numWorkers : Nat}
    (hB : 1 ≤ batchSize) (hW : 1 ≤ numWorkers) :
    ∀ (fuel : Nat) (st : OrchState), total ≤ st.all_incidents.length + fuel →
    total ≤ (runTrace st (perfectTrace total batchSize numWorkers fuel st)).all_incidents.length := by
  intro fuel
  induction fuel with
  | zero =>
    intro st h
    simpa [perfectTrace, runTrace] using h
  | succ fuel ih =>
    intro st h
    unfold perfectTrace
    by_cases hlt : st.all_incidents.length < total
    · rw [if_pos hlt]
      rw [show runTrace st (perfectRound total batchSize numWorkers st
            :: perfectTrace total batchSize numWorkers fuel
                (collectRound st (perfectRound total batchSize numWorkers st)))
          = runTrace (collectRound st (perfectRound total batchSize numWorkers st))
              (perfectTrace total batchSize numWorkers fuel
                (collectRound st (perfectRound total batchSize numWorkers st))) from rfl]
      apply ih
      have hperm : permEq ((perfectRound total batchSize numWorkers st).map Prod.fst)
          (dispatchRound total st.all_incidents.length batchSize numWorkers) = true := by
        rw [perfectRound_fst]
        exact (permEq_iff _ _).mpr (List.Perm.refl _)
      obtain ⟨hlen, _⟩ := round_step hB hlt hperm (perfectRound_exact _ _ _ _)
      have hceil : 1 ≤ ceilBatches (total - st.all_incidents.length) batchSize := by
        unfold ceilBatches
        rw [Nat.le_div_iff_mul_le (by omega)]
        omega
      have hn : 1 ≤ min numWorkers (ceilBatches (total - st.all_incidents.length) batchSize) :=
        by omega
      have hprod : 1 ≤ min numWorkers
          (ceilBatches (total - st.all_incidents.length) batchSize) * batchSize := by
        have := Nat.mul_le_mul hn hB
        omega
      rw [hlen]
      omega
    · rw [if_neg hlt]
      simp only [runTrace, List.foldl_nil]
      omega

/-- C1: for a dispatch round with snapshot length L < T, batch size B ≥ 1 and
worker count W ≥ 1, exactly `min W (ceil ((T-L)/B))` batch jobs are submitted;
job i gets offset `L + i*B` and size `min B (T - L - i*B)`; the offsets are
pairwise distinct and the offset ranges do not overlap. -/
theorem dispatch_round_spec (L T B W : Nat) (hLT : L < T) (hB : 1 ≤ B) (_hW : 1 ≤ W) :
    (dispatchRound T L B W).length = min W (ceilBatches (T - L) B)
    ∧ (∀ i, ∀ h : i < (dispatchRound T L B W).length,
        (dispatchRound T L B W).get ⟨i, h⟩ = (L + i * B, min B (T - L - i * B)))
    ∧ ((dispatchRound T L B W).map Prod.fst).Nodup
    ∧ (dispatchRound T L B W).Pairwise
        (fun p q => p.1 + p.2 ≤ q.1 ∨ q.1 + q.2 ≤ p.1) := by
  rw [dispatchRound_eq_map hB hLT]
  refine ⟨by simp, ?_, ?_, ?_⟩
  · intro i h
    simp [List.get_eq_getElem, List.getElem_map, List.getElem_range]
  · rw [List.map_map]
    apply List.Nodup.map ?_ (List.nodup_range _)
    intro a b hab
    have h1 : L + a * B = L + b * B := hab
    have h2 : a * B = b * B := by omega
    exact Nat.eq_of_mul_eq_mul_right (by omega) h2
  · rw [List.pairwise_map]
    apply List.Pairwise.imp ?_ (List.pairwise_lt_range _)
    intro a b hab
    left
    have h1 : min B (T - L - a * B) ≤ B := Nat.min_le_left _ _
    have h2 : (a + 1) * B ≤ b * B := Nat.mul_le_mul_right B hab
    have h3 : (a + 1) * B = a * B + B := by ring
    omega

/-- Witness for C1 at L = 0, T = 10, B = 4, W = 2. -/
theorem dispatch_round_spec_witness :
    (0 : Nat) < 10 ∧ (1 : Nat) ≤ 4 ∧ (1 : Nat) ≤ 2
    ∧ (dispatchRound 10 0 4 2).length = min 2 (ceilBatches (10 - 0) 4)
    ∧ ((dispatchRound 10 0 4 2).map Prod.fst).Nodup
    ∧ (dispatchRound 10 0 4 2).Pairwise
        (fun p q => p.1 + p.2 ≤ q.1 ∨ q.1 + q.2 ≤ p.1) := by
  have h := dispatch_round_spec 0 10 4 2 (by decide) (by decide) (by decide)
  refine ⟨by decide, by decide, by decide, ?_, ?_, ?_⟩
  · exact h.1
  · exact h.2.2.1
  · exact h.2.2.2

/-- C2: with target 10, batch size 4, two workers, starting from an empty
collection, when every batch succeeds with exactly its requested count the
loop runs exactly two rounds — jobs (0,4),(4,4) then (8,2) — ends with 10
records, and the checkpoint written after the last successful batch holds the
full 10-record collection. -/
theorem end_to_end_scenario (tr : List Round)
    (hv : validTrace 10 4 2 ⟨[], none⟩ tr = true)
    (he : exactTrace tr = true)
    (hc : 10 ≤ (runTrace ⟨[], none⟩ tr).all_incidents.length) :
    tr.length = 2
    ∧ (∃ r1 r2, tr = [r1, r2]
        ∧ (r1.map Prod.fst).Perm [(0, 4), (4, 4)]
        ∧ (r2.map Prod.fst).Perm [(8, 2)])
    ∧ (runTrace ⟨[], none⟩ tr).all_incidents.length = 10
    ∧ (runTrace ⟨[], none⟩ tr).temp_file
        = some (save_incidents_to_temp (runTrace ⟨[], none⟩ tr).all_incidents) := by
  cases tr with
  | nil => exact absurd hc (by decide)
  | cons r1 rs =>
    simp only [validTrace, Bool.and_eq_true, decide_eq_true_eq] at hv
    obtain ⟨⟨hlt1, hperm1⟩, hv2⟩ := hv
    simp only [exactTrace, List.all_cons, Bool.and_eq_true] at he
    obtain ⟨he1, he2⟩ := he
    have hst0 : (⟨[], none⟩ : OrchState).all_incidents.length = 0 := rfl
    obtain ⟨hlen1, -⟩ := @round_step 10 4 2 ⟨[], none⟩ r1 (by decide) hlt1 hperm1 he1
    rw [hst0] at hlen1
    have hval1 : (collectRound ⟨[], none⟩ r1).all_incidents.length = 8 := by
      rw [hlen1]; decide
    cases rs with
    | nil =>
      have hfin : (runTrace ⟨[], none⟩ [r1]).all_incidents.length = 8 := by
        rw [show runTrace (⟨[], none⟩ : OrchState) [r1] = collectRound ⟨[], none⟩ r1 from rfl]
        exact hval1
      omega
    | cons r2 rs2 =>
      simp only [validTrace, Bool.and_eq_true, decide_eq_true_eq] at hv2
      obtain ⟨⟨hlt2, hperm2⟩, hv3⟩ := hv2
      simp only [List.all_cons, Bool.and_eq_true] at he2
      obtain ⟨he2a, he2b⟩ := he2
      obtain ⟨hlen2, -⟩ := @round_step 10 4 2 (collectRound ⟨[], none⟩ r1) r2
        (by decide) hlt2 hperm2 he2a
      rw [hval1] at hlen2
      have hval2 : (collectRound (collectRound ⟨[], none⟩ r1) r2).all_incidents.length = 10 := by
        rw [hlen2]; decide
      cases rs2 with
      | cons r3 rs3 =>
        simp only [validTrace, Bool.and_eq_true, decide_eq_true_eq] at hv3
        obtain ⟨⟨hlt3, -⟩, -⟩ := hv3
        rw [hval2] at hlt3
        omega
      | nil =>
        have hrun : runTrace ⟨[], none⟩ [r1, r2]
            = collectRound (collectRound ⟨[], none⟩ r1) r2 := rfl
        refine ⟨rfl, ⟨r1, r2, rfl, ?_, ?_⟩, ?_, ?_⟩
        · have hp := (permEq_iff _ _).mp hperm1
          rw [show dispatchRound 10 (⟨[], none⟩ : OrchState).all_incidents.length 4 2
              = [(0, 4), (4, 4)] from by decide] at hp
          exact hp
        · have hp := (permEq_iff _ _).mp hperm2
          rw [hval1] at hp
          rw [show dispatchRound 10 8 4 2 = [(8, 2)] from by decide] at hp
          exact hp
        · rw [hrun]; exact hval2
        · rw [hrun]
          have hpl : r2.length = 1 := by
            have h1 := ((permEq_iff _ _).mp hperm2).length_eq
            rw [List.length_map, hval1] at h1
            rw [show (dispatchRound 10 8 4 2).length = 1 from by decide] at h1
            exact h1
          obtain ⟨e, rfl⟩ := List.length_eq_one.mp hpl
          have hsucc : hasSuccess [e] = true := by
            simp only [exactRound, List.all_cons, List.all_nil, Bool.and_true] at he2a
            cases ho : e.2 with
            | none => rw [ho] at he2a; exact absurd he2a (by simp)
            | some l => simp [hasSuccess, ho]
          rw [collect_temp, if_pos hsucc]

/-- Witness for C2: the concrete all-success trace with rounds
(0,4),(4,4) then (8,2). -/
theorem end_to_end_scenario_witness :
    validTrace 10 4 2 ⟨[], none⟩
      [[((0, 4), some (List.replicate 4 Json.null)),
        ((4, 4), some (List.replicate 4 Json.null))],
       [((8, 2), some (List.replicate 2 Json.null))]] = true
    ∧ (runTrace ⟨[], none⟩
        [[((0, 4), some (List.replicate 4 Json.null)),
          ((4, 4), some (List.replicate 4 Json.null))],
         [((8, 2), some (List.replicate 2 Json.null))]]).all_incidents.length = 10
    ∧ [[((0, 4), some (List.replicate 4 Json.null)),
        ((4, 4), some (List.replicate 4 Json.null))],
       [((8, 2), some (List.replicate 2 Json.null))]].length = 2 := by
  refine ⟨by decide, ?_, ?_⟩
  · exact (end_to_end_scenario _ (by decide) (by decide) (by decide)).2.2.1
  · exact (end_to_end_scenario _ (by decide) (by decide) (by decide)).1

/-- C3: starting from a checkpoint with K records and target T > K, when every
batch succeeds with exactly its requested count the requested sizes across all
rounds sum to exactly T - K and the loop ends with exactly T records; such a
completed run exists. -/
theorem resumability_aggregate (init : List Json) (tempf : Option (List Char))
    (total batchSize numWorkers : Nat)
    (hK : init.length < total) (hB : 1 ≤ batchSize) (hW : 1 ≤ numWorkers) :
    (∀ tr : List Round, validTrace total batchSize numWorkers ⟨init, tempf⟩ tr = true →
        exactTrace tr = true →
        total ≤ (runTrace ⟨init, tempf⟩ tr).all_incidents.length →
        requestedTrace tr = total - init.length
        ∧ (runTrace ⟨init, tempf⟩ tr).all_incidents.length = total)
    ∧ ∃ tr : List Round, validTrace total batchSize numWorkers ⟨init, tempf⟩ tr = true
        ∧ exactTrace tr = true
        ∧ (runTrace ⟨init, tempf⟩ tr).all_incidents.length = total := by
  have hst : (⟨init, tempf⟩ : OrchState).all_incidents.length = init.length := rfl
  constructor
  · intro tr hv he hc
    obtain ⟨h1, h2⟩ := run_exact hB tr ⟨init, tempf⟩ (by rw [hst]; omega) hv he
    rw [hst] at h1
    exact ⟨by omega, by omega⟩
  · refine ⟨perfectTrace total batchSize numWorkers (total - init.length) ⟨init, tempf⟩,
      perfectTrace_valid total batchSize numWorkers (total - init.length) ⟨init, tempf⟩,
      perfectTrace_exact total batchSize numWorkers (total - init.length) ⟨init, tempf⟩, ?_⟩
    have hcomp := @perfectTrace_complete total batchSize numWorkers hB hW
      (total - init.length) ⟨init, tempf⟩ (by rw [hst]; omega)
    obtain ⟨-, h2⟩ := run_exact hB
      (perfectTrace total batchSize numWorkers (total - init.length) ⟨init, tempf⟩)
      ⟨init, tempf⟩ (by rw [hst]; omega)
      (perfectTrace_valid total batchSize numWorkers (total - init.length) ⟨init, tempf⟩)
      (perfectTrace_exact total batchSize numWorkers (total - init.length) ⟨init, tempf⟩)
    omega

/-- Witness for C3 at K = 0, T = 2, B = 1, W = 1. -/
theorem resumability_aggregate_witness :
    ([] : List Json).length < 2 ∧ 1 ≤ 1
    ∧ ∃ tr : List Round, validTrace 2 1 1 ⟨[], none⟩ tr = true
        ∧ exactTrace tr = true
        ∧ (runTrace ⟨[], none⟩ tr).all_incidents.length = 2 :=
  ⟨by decide, by decide,
   (resumability_aggregate [] none 2 1 1 (by decide) (by decide) (by decide)).2⟩

/-- C4: a failed batch contributes zero records and is simply skipped — the
round's collection result is as if the failed entry were absent; the next
round's `remaining = target - current` computation counts only what the
successes delivered, so the failed batch's budget re-enters it; and any later
all-success completed run still ends at exactly the target, so no record
count is permanently lost. -/
theorem collect_skip_failed (job : Nat × Nat) (post : Round) :
    ∀ (pre : Round) (st : OrchState),
      collectRound st (pre ++ (job, none) :: post) = collectRound st (pre ++ post) := by
  intro pre
  induction pre with
  | nil => intro st; simp [collectRound]
  | cons e pre ih =>
    intro st
    obtain ⟨j2, o⟩ := e
    cases o with
    | none => simp [collectRound, ih]
    | some recs => simp [collectRound, ih]

theorem failed_batch_semantics (total batchSize numWorkers : Nat) (st : OrchState)
    (pre post : Round) (job : Nat × Nat)
    (hB : 1 ≤ batchSize)
    (hle : st.all_incidents.length + deliveredRound (pre ++ post) ≤ total) :
    collectRound st (pre ++ (job, none) :: post) = collectRound st (pre ++ post)
    ∧ (collectRound st (pre ++ (job, none) :: post)).all_incidents.length
        = st.all_incidents.length + deliveredRound (pre ++ post)
    ∧ total - (collectRound st (pre ++ (job, none) :: post)).all_incidents.length
        = (total - st.all_incidents.length) - deliveredRound (pre ++ post)
    ∧ ∀ tr : List Round, validTrace total batchSize numWorkers
          (collectRound st (pre ++ (job, none) :: post)) tr = true →
        exactTrace tr = true →
        total ≤ (runTrace (collectRound st (pre ++ (job, none) :: post))
          tr).all_incidents.length →
        (runTrace (collectRound st (pre ++ (job, none) :: post))
          tr).all_incidents.length = total := by
  have hskip : ∀ st' : OrchState,
      collectRound st' (pre ++ (job, none) :: post) = collectRound st' (pre ++ post) :=
    fun st' => collect_skip_failed job post pre st'
  have hlen : (collectRound st (pre ++ post)).all_incidents.length
      = st.all_incidents.length + deliveredRound (pre ++ post) := by
    rw [collectRound_all, List.length_append, successRecords_length]
  refine ⟨hskip st, by rw [hskip st, hlen], by rw [hskip st, hlen]; omega, ?_⟩
  intro tr hv he hc
  obtain ⟨-, h2⟩ := run_exact hB tr _ (by rw [hskip st, hlen]; omega) hv he
  omega

/-- Witness for C4: a one-job round that fails outright, followed by an
all-success completed run reaching the target. -/
theorem failed_batch_semantics_witness :
    (1 : Nat) ≤ 1
    ∧ (⟨[], none⟩ : OrchState).all_incidents.length
        + deliveredRound ([] ++ []) ≤ 2
    ∧ collectRound ⟨[], none⟩ ([] ++ ((0, 1), none) :: [])
        = collectRound ⟨[], none⟩ ([] ++ [])
    ∧ (runTrace (collectRound ⟨[], none⟩ ([] ++ ((0, 1), none) :: []))
        [[((0, 1), some [Json.null])], [((1, 1), some [Json.null])]]).all_incidents.length
        = 2 := by
  have h := failed_batch_semantics 2 1 1 ⟨[], none⟩ [] [] (0, 1) (by decide) (by decide)
  refine ⟨by decide, by decide, h.1, ?_⟩
  exact h.2.2.2 [[((0, 1), some [Json.null])], [((1, 1), some [Json.null])]]
    (by decide) (by decide) (by decide)

/-- C5 counterexample: at a state with one in-memory record and no checkpoint
file yet written, the `KeyboardInterrupt` handler leaves the checkpoint file
untouched — it is not rewritten from the in-memory collection, contradicting
the claimed final checkpoint save; the fatal-error handler behaves the same. -/
theorem interrupt_no_final_save_cex :
    (keyboard_interrupt_handler ⟨[Json.null], none⟩).temp_file
        ≠ some (save_incidents_to_temp [Json.null])
    ∧ keyboard_interrupt_handler ⟨[Json.null], none⟩
        ≠ final_save_on_termination ⟨[Json.null], none⟩
    ∧ (fatal_error_handler ⟨[Json.null], none⟩).temp_file
        ≠ some (save_incidents_to_temp [Json.null]) := by
  refine ⟨?_, ?_, ?_⟩
  · intro h
    exact Option.noConfusion h
  · intro h
    have h2 := congrArg OrchState.temp_file h
    exact Option.noConfusion h2
  · intro h
    exact Option.noConfusion h

/-- C5 as amended: the termination handlers only report progress — they change
neither the collection nor the checkpoint file and perform no save; the
checkpoint file instead holds the last per-batch save: after any round with at
least one successful batch it equals the serialization of the then-current
collection. -/
theorem termination_handlers_behavior (st : OrchState) (r : Round) :
    keyboard_interrupt_handler st = st
    ∧ fatal_error_handler st = st
    ∧ (keyboard_interrupt_handler st).temp_file = st.temp_file
    ∧ (fatal_error_handler st).temp_file = st.temp_file
    ∧ (hasSuccess r = true →
        (collectRound st r).temp_file
          = some (save_incidents_to_temp (collectRound st r).all_incidents)) := by
  refine ⟨rfl, rfl, rfl, rfl, fun hs => ?_⟩
  rw [collect_temp, if_pos hs]

/-- Witness for C5's amended statement: one successful batch updates the
checkpoint to the serialized current collection. -/
theorem termination_handlers_behavior_witness :
    hasSuccess [((0, 1), some [Json.null])] = true
    ∧ (collectRound ⟨[], none⟩ [((0, 1), some [Json.null])]).temp_file
        = some (save_incidents_to_temp
            (collectRound ⟨[], none⟩ [((0, 1), some [Json.null])]).all_incidents) :=
  ⟨by decide,
   (termination_handlers_behavior ⟨[], none⟩ [((0, 1), some [Json.null])]).2.2.2.2 (by decide)⟩

/-- C10 as amended: each further round runs only when the length is below the
target; successful batches are appended whole, in completion order, with no
truncation; and the loop can stop — no further round is valid — exactly when
the collection length has reached or passed the target. -/
theorem loop_exit_invariants (total batchSize numWorkers : Nat) (st : OrchState)
    (tr : List Round)
    (hv : validTrace total batchSize numWorkers st tr = true) :
    (tr ≠ [] → st.all_incidents.length < total)
    ∧ (runTrace st tr).all_incidents = st.all_incidents ++ traceRecords tr
    ∧ ((∀ r : Round, validTrace total batchSize numWorkers (runTrace st tr) [r] ≠ true)
        ↔ total ≤ (runTrace st tr).all_incidents.length) := by
  refine ⟨?_, runTrace_records tr st, ?_⟩
  · intro hne
    cases tr with
    | nil => exact absurd rfl hne
    | cons r rs =>
      simp only [validTrace, Bool.and_eq_true, decide_eq_true_eq] at hv
      exact hv.1.1
  · constructor
    · intro hall
      by_contra hlt
      apply hall ((dispatchRound total (runTrace st tr).all_incidents.length batchSize
          numWorkers).map (fun j => (j, (none : Option (List Json)))))
      simp only [validTrace, Bool.and_eq_true, decide_eq_true_eq]
      refine ⟨⟨by omega, ?_⟩, trivial⟩
      rw [List.map_map]
      have hmap : List.map (Prod.fst ∘ fun j : Nat × Nat => (j, (none : Option (List Json))))
          (dispatchRound total (runTrace st tr).all_incidents.length batchSize numWorkers)
          = dispatchRound total (runTrace st tr).all_incidents.length batchSize numWorkers :=
        List.map_id _
      rw [hmap]
      exact (permEq_iff _ _).mpr (List.Perm.refl _)
    · intro hge r hvr
      simp only [validTrace, Bool.and_eq_true, decide_eq_true_eq] at hvr
      omega

/-- Witness for C10's amended statement at a concrete completed one-round
run. -/
theorem loop_exit_invariants_witness :
    validTrace 2 1 1 ⟨[], none⟩ [[((0, 1), some [Json.null, Json.null])]] = true
    ∧ (runTrace ⟨[], none⟩ [[((0, 1), some [Json.null, Json.null])]]).all_incidents
        = ([] : List Json) ++ traceRecords [[((0, 1), some [Json.null, Json.null])]] :=
  ⟨by decide,
   (loop_exit_invariants 2 1 1 ⟨[], none⟩ [[((0, 1), some [Json.null, Json.null])]]
     (by decide)).2.1⟩

/-- `true` when the batch's outcome delivered strictly more records than the
batch requested. -/
def overDelivered (e : (Nat × Nat) × Option (List Json)) : Bool :=
  match e.2 with
  | some l => decide (e.1.2 < l.length)
  | none => false

/-- C10 counterexample: with target 10, batch size 4, two workers, the first
batch returns 5 records for a request of 4 (over-delivery), yet the run ends
with exactly 10 records — not strictly more than the target: the surplus is
absorbed by the next round's `remaining` computation. -/
theorem overshoot_absorbed_cex :
    validTrace 10 4 2 ⟨[], none⟩
      [[((0, 4), some (List.replicate 5 Json.null)),
        ((4, 4), some (List.replicate 4 Json.null))],
       [((9, 1), some (List.replicate 1 Json.null))]] = true
    ∧ ([[((0, 4), some (List.replicate 5 Json.null)),
         ((4, 4), some (List.replicate 4 Json.null))],
        [((9, 1), some (List.replicate 1 Json.null))]].any
          (fun r => r.any overDelivered)) = true
    ∧ (runTrace ⟨[], none⟩
        [[((0, 4), some (List.replicate 5 Json.null)),
          ((4, 4), some (List.replicate 4 Json.null))],
         [((9, 1), some (List.replicate 1 Json.null))]]).all_incidents.length = 10
    ∧ ¬ (10 < (runTrace ⟨[], none⟩
        [[((0, 4), some (List.replicate 5 Json.null)),
          ((4, 4), some (List.replicate 4 Json.null))],
         [((9, 1), some (List.replicate 1 Json.null))]]).all_incidents.length) := by
  exact ⟨by decide, by decide, by decide, by decide⟩
